import Mathlib

/-!
Shallow embedding of the transport/session layer of the BrocadeICXMCP
repository (src/lib/telnet-client.ts and src/lib/ssh-client.ts), together
with proofs checking the natural-language specification's claims against it.

Machine integers from the source (bytes of the telnet stream, exit codes,
millisecond delays) are modelled as `Nat`/`Int`; JavaScript strings are
modelled as `List Char`; fallible operations return sum types.
-/

namespace Brocade

/-! ## Telnet IAC constants (telnet-client.ts, lines 18-32) -/

def IAC : Nat := 0xff
def DONT : Nat := 0xfe
def DO : Nat := 0xfd
def WONT : Nat := 0xfc
def WILL : Nat := 0xfb
def SB : Nat := 0xfa
def SE : Nat := 0xf0

def OPT_ECHO : Nat := 0x01
def OPT_SUPPRESS_GO_AHEAD : Nat := 0x03
def OPT_TERMINAL_TYPE : Nat := 0x18
def OPT_NAWS : Nat := 0x1f

/-! ## IAC negotiation replies (telnet-client.ts, `handleIACNegotiation`, lines 391-420)

The socket writes issued by `handleIACNegotiation` are modelled as the list
of reply bytes, in write order. -/

def handleIACNegotiation (cmd opt : Nat) : List Nat :=
  if cmd = DO then
    if opt = OPT_SUPPRESS_GO_AHEAD then [IAC, WILL, opt]
    else if opt = OPT_NAWS then
      -- WILL NAWS followed by the window-size subnegotiation: 200 cols x 50 rows
      [IAC, WILL, opt] ++ [IAC, SB, OPT_NAWS, 0, 200, 0, 50, IAC, SE]
    else if opt = OPT_TERMINAL_TYPE then [IAC, WILL, opt]
    else [IAC, WONT, opt]
  else if cmd = WILL then
    if opt = OPT_ECHO ∨ opt = OPT_SUPPRESS_GO_AHEAD then [IAC, DO, opt]
    else [IAC, DONT, opt]
  else if cmd = DONT then [IAC, WONT, opt]
  else if cmd = WONT then [IAC, DONT, opt]
  else []

/-! ## IAC scanning (telnet-client.ts, `processIAC`, lines 337-386)

The source walks the buffer with an index `i`; at `IAC SB` it advances a
second index `j` while `j < data.length - 1` looking for an adjacent
`IAC SE` pair, and resumes the main scan at `j`.  `skipSB` is that inner
loop, returning the suffix at which the main scan resumes. -/

def skipSB : List Nat → List Nat
  | [] => []
  | [x] => [x]
  | x :: y :: rest => if x = IAC ∧ y = SE then rest else skipSB (y :: rest)

theorem skipSB_length_le (l : List Nat) : (skipSB l).length ≤ l.length := by
  induction l with
  | nil => simp [skipSB]
  | cons x rest ih =>
    cases rest with
    | nil => simp [skipSB]
    | cons y rest' =>
      rw [skipSB]
      split
      · simp only [List.length_cons]; omega
      · exact le_trans ih (by simp)

/-- `processIAC` returns the cleaned application bytes and the concatenated
reply bytes written during the scan, in order. -/
def processIAC : List Nat → List Nat × List Nat
  | [] => ([], [])
  | b :: rest =>
    if b = IAC then
      match rest with
      | [] => ([], [])                           -- i + 1 >= data.length: break
      | c :: rest2 =>
        if c = IAC then
          -- escaped 0xFF
          let p := processIAC rest2
          (IAC :: p.1, p.2)
        else if c = DO ∨ c = DONT ∨ c = WILL ∨ c = WONT then
          match rest2 with
          | [] => ([], [])                       -- i + 2 >= data.length: break
          | opt :: rest3 =>
            let p := processIAC rest3
            (p.1, handleIACNegotiation c opt ++ p.2)
        else if c = SB then
          processIAC (skipSB rest2)
        else
          processIAC rest2                       -- skip other 2-byte IAC commands
    else
      let p := processIAC rest
      (b :: p.1, p.2)
  termination_by l => l.length
  decreasing_by
    all_goals simp_wf
    all_goals first
      | omega
      | (refine Nat.lt_of_le_of_lt (skipSB_length_le _) ?_
         omega)

/-! ## Token-level view of the telnet byte stream

A well-formed incoming stream is a sequence of tokens: literal bytes,
escaped `IAC IAC` pairs, negotiation triples, and complete subnegotiation
blocks.  The spec's documented policy (spec.md §4.3) is stated per token. -/

inductive Tok where
  | lit (b : Nat)
  | esc
  | neg (cmd opt : Nat)
  | sub (body : List Nat)
  deriving DecidableEq, Repr

def Tok.encode : Tok → List Nat
  | .lit b => [b]
  | .esc => [IAC, IAC]
  | .neg c o => [IAC, c, o]
  | .sub body => [IAC, SB] ++ body ++ [IAC, SE]

/-- No adjacent `IAC SE` pair occurs in the list (so the terminator of a
subnegotiation block found by the scan is the real one). -/
def noIACSE : List Nat → Bool
  | [] => true
  | [_] => true
  | x :: y :: rest => (decide (¬(x = IAC ∧ y = SE))) && noIACSE (y :: rest)

/-- Well-formedness: a literal is not the escape byte, a negotiation command
is one of DO/DONT/WILL/WONT, and a subnegotiation body contains no adjacent
`IAC SE` pair. -/
def Tok.wf : Tok → Prop
  | .lit b => b ≠ IAC
  | .esc => True
  | .neg c _ => c = DO ∨ c = DONT ∨ c = WILL ∨ c = WONT
  | .sub body => noIACSE body = true

instance : DecidablePred Tok.wf := fun t =>
  match t with
  | .lit b => inferInstanceAs (Decidable (b ≠ IAC))
  | .esc => inferInstanceAs (Decidable True)
  | .neg c _ => inferInstanceAs (Decidable (c = DO ∨ c = DONT ∨ c = WILL ∨ c = WONT))
  | .sub body => inferInstanceAs (Decidable (noIACSE body = true))

def encodeToks (ts : List Tok) : List Nat := (ts.map Tok.encode).flatten

/-- Modelled from the spec: the cleaned-stream contribution of one token,
following the documented policy word for word (escaped `IAC IAC` decodes to
one literal 0xFF, negotiation triples and subnegotiation blocks contribute
nothing, every other byte passes through unchanged). -/
def specTokenCleaned : Tok → List Nat
  | .lit b => [b]
  | .esc => [0xff]
  | .neg _ _ => []
  | .sub _ => []

/-- Modelled from the spec: the reply bytes for one token per the documented
policy: WILL to DO SUPPRESS-GO-AHEAD, WILL plus a window-size (columns x
rows) subnegotiation to DO NAWS, WILL to DO TERMINAL-TYPE, WONT to any other
DO; DO to WILL ECHO or WILL SUPPRESS-GO-AHEAD, DONT to any other WILL; WONT
in reply to DONT and DONT in reply to WONT.  Non-negotiation tokens produce
no reply. -/
def specTokenReply : Tok → List Nat
  | .neg c o =>
    if c = DO then
      if o = OPT_SUPPRESS_GO_AHEAD then [IAC, WILL, o]
      else if o = OPT_NAWS then [IAC, WILL, o, IAC, SB, OPT_NAWS, 0, 200, 0, 50, IAC, SE]
      else if o = OPT_TERMINAL_TYPE then [IAC, WILL, o]
      else [IAC, WONT, o]
    else if c = WILL then
      if o = OPT_ECHO ∨ o = OPT_SUPPRESS_GO_AHEAD then [IAC, DO, o]
      else [IAC, DONT, o]
    else if c = DONT then [IAC, WONT, o]
    else if c = WONT then [IAC, DONT, o]
    else []
  | _ => []

theorem handleIACNegotiation_eq_spec (c o : Nat)
    (h : c = DO ∨ c = DONT ∨ c = WILL ∨ c = WONT) :
    handleIACNegotiation c o = specTokenReply (.neg c o) := by
  rcases h with h | h | h | h <;> subst h <;>
    simp [handleIACNegotiation, specTokenReply, DO, DONT, WILL, WONT]

/-- The subnegotiation scan consumes exactly a well-formed body and its
`IAC SE` terminator. -/
theorem skipSB_wf_body (body rest : List Nat)
    (h : noIACSE body = true) :
    skipSB (body ++ IAC :: SE :: rest) = rest := by
  induction body with
  | nil => simp [skipSB]
  | cons b body' ih =>
    cases body' with
    | nil =>
      rw [List.cons_append, List.nil_append, skipSB]
      rw [if_neg (by rintro ⟨-, h2⟩; exact absurd h2 (by decide))]
      rw [skipSB, if_pos ⟨rfl, rfl⟩]
    | cons b2 body'' =>
      have hb : ¬(b = IAC ∧ b2 = SE) := by
        have := (Bool.and_eq_true _ _).mp h
        exact of_decide_eq_true this.1
      have h' : noIACSE (b2 :: body'') = true :=
        ((Bool.and_eq_true _ _).mp h).2
      rw [List.cons_append, List.cons_append, skipSB, if_neg hb,
        ← List.cons_append]
      exact ih h'

theorem processIAC_nil : processIAC [] = ([], []) := by
  rw [processIAC.eq_def]

theorem processIAC_byte (b : Nat) (rest : List Nat) (hb : ¬ b = IAC) :
    processIAC (b :: rest) = (b :: (processIAC rest).1, (processIAC rest).2) := by
  rw [processIAC.eq_def]
  simp [hb]

theorem processIAC_esc (rest : List Nat) :
    processIAC (IAC :: IAC :: rest) =
      (IAC :: (processIAC rest).1, (processIAC rest).2) := by
  rw [processIAC.eq_def]
  simp

theorem processIAC_neg (c o : Nat) (rest : List Nat)
    (h1 : ¬ c = IAC) (h2 : c = DO ∨ c = DONT ∨ c = WILL ∨ c = WONT) :
    processIAC (IAC :: c :: o :: rest) =
      ((processIAC rest).1, handleIACNegotiation c o ++ (processIAC rest).2) := by
  rw [processIAC.eq_def]
  simp [h1, h2]

theorem processIAC_sb (rest2 : List Nat) :
    processIAC (IAC :: SB :: rest2) = processIAC (skipSB rest2) := by
  rw [processIAC.eq_def]
  have h1 : ¬ (SB = IAC) := by decide
  have h2 : ¬ (SB = DO ∨ SB = DONT ∨ SB = WILL ∨ SB = WONT) := by decide
  simp [h1, h2]

/-- Decoding one well-formed token at the head of the buffer consumes exactly
that token and contributes exactly its documented cleaned bytes and replies. -/
theorem processIAC_token (t : Tok) (rest : List Nat) (hwf : t.wf) :
    processIAC (t.encode ++ rest) =
      (specTokenCleaned t ++ (processIAC rest).1,
       specTokenReply t ++ (processIAC rest).2) := by
  cases t with
  | lit b =>
    have hb : b ≠ IAC := hwf
    simp only [Tok.encode, List.cons_append, List.nil_append]
    rw [processIAC_byte b rest hb]
    simp [specTokenCleaned, specTokenReply]
  | esc =>
    simp only [Tok.encode, List.cons_append, List.nil_append]
    rw [processIAC_esc rest]
    simp [specTokenCleaned, specTokenReply, IAC]
  | neg c o =>
    have hc : c = DO ∨ c = DONT ∨ c = WILL ∨ c = WONT := hwf
    have hcIAC : ¬(c = IAC) := by
      rcases hc with h | h | h | h <;> subst h <;> decide
    simp only [Tok.encode, List.cons_append, List.nil_append]
    rw [processIAC_neg c o rest hcIAC hc,
      handleIACNegotiation_eq_spec c o hc]
    simp [specTokenCleaned]
  | sub body =>
    have hb : noIACSE body = true := hwf
    have hshape :
        Tok.encode (.sub body) ++ rest = IAC :: SB :: (body ++ IAC :: SE :: rest) := by
      simp [Tok.encode]
    rw [hshape, processIAC_sb, skipSB_wf_body body rest hb]
    simp [specTokenCleaned, specTokenReply]

/-- C1: for every buffer made of well-formed tokens, the Telnet IAC decoder
produces the cleaned stream and the reply bytes exactly per the documented
policy: `IAC IAC` decodes to one literal 0xFF, every DO/DONT/WILL/WONT
triple is consumed and answered per the option table, an `SB ... SE` block
contributes nothing, and every other byte passes through unchanged. -/
theorem iac_decode_policy (ts : List Tok) (hwf : ∀ t ∈ ts, t.wf) :
    processIAC (encodeToks ts) =
      ((ts.map specTokenCleaned).flatten, (ts.map specTokenReply).flatten) := by
  induction ts with
  | nil => simp [encodeToks, processIAC]
  | cons t ts ih =>
    have h1 : t.wf := hwf t (by simp)
    have h2 : ∀ u ∈ ts, u.wf := fun u hu => hwf u (by simp [hu])
    have henc : encodeToks (t :: ts) = t.encode ++ encodeToks ts := by
      simp [encodeToks]
    rw [henc, processIAC_token t _ h1, ih h2]
    simp

/-- Witness for C1 at a concrete buffer exercising every branch of the
documented policy. -/
theorem iac_decode_policy_witness :
    (∀ t ∈ [Tok.lit 0x41, Tok.esc, Tok.neg DO OPT_SUPPRESS_GO_AHEAD,
            Tok.neg DO OPT_NAWS, Tok.neg DO OPT_TERMINAL_TYPE, Tok.neg DO 0x22,
            Tok.neg WILL OPT_ECHO, Tok.neg WILL OPT_SUPPRESS_GO_AHEAD,
            Tok.neg WILL 0x05, Tok.neg DONT 0x07, Tok.neg WONT 0x09,
            Tok.sub [0x18, 0x01], Tok.lit 0x42], t.wf) ∧
    processIAC (encodeToks [Tok.lit 0x41, Tok.esc, Tok.neg DO OPT_SUPPRESS_GO_AHEAD,
            Tok.neg DO OPT_NAWS, Tok.neg DO OPT_TERMINAL_TYPE, Tok.neg DO 0x22,
            Tok.neg WILL OPT_ECHO, Tok.neg WILL OPT_SUPPRESS_GO_AHEAD,
            Tok.neg WILL 0x05, Tok.neg DONT 0x07, Tok.neg WONT 0x09,
            Tok.sub [0x18, 0x01], Tok.lit 0x42]) =
      ([0x41, 0xff, 0x42],
       [IAC, WILL, 0x03] ++
       ([IAC, WILL, 0x1f] ++ [IAC, SB, OPT_NAWS, 0, 200, 0, 50, IAC, SE]) ++
       [IAC, WILL, 0x18] ++ [IAC, WONT, 0x22] ++
       [IAC, DO, 0x01] ++ [IAC, DO, 0x03] ++ [IAC, DONT, 0x05] ++
       [IAC, WONT, 0x07] ++ [IAC, DONT, 0x09]) :=
  ⟨by decide, by
    rw [iac_decode_policy _ (by decide)]
    decide⟩

/-- Decoding a buffer that starts with well-formed tokens: the tokens
contribute their documented outputs and the remainder is decoded after
them. -/
theorem processIAC_append_toks (ts : List Tok) (suffix : List Nat)
    (hwf : ∀ t ∈ ts, t.wf) :
    processIAC (encodeToks ts ++ suffix) =
      ((ts.map specTokenCleaned).flatten ++ (processIAC suffix).1,
       (ts.map specTokenReply).flatten ++ (processIAC suffix).2) := by
  induction ts with
  | nil => simp [encodeToks]
  | cons t ts ih =>
    have h1 : t.wf := hwf t (by simp)
    have h2 : ∀ u ∈ ts, u.wf := fun u hu => hwf u (by simp [hu])
    have henc : encodeToks (t :: ts) ++ suffix = t.encode ++ (encodeToks ts ++ suffix) := by
      simp [encodeToks]
    rw [henc, processIAC_token t _ h1, ih h2]
    simp

/-- The scan over a buffer suffix holding no adjacent `IAC SE` pair stops at
the second-to-last byte, leaving the final byte (if any) to be processed. -/
theorem skipSB_no_terminator (body : List Nat) (h : noIACSE body = true) :
    skipSB body = (match body.getLast? with | none => [] | some b => [b]) := by
  induction body with
  | nil => simp [skipSB]
  | cons x body' ih =>
    cases body' with
    | nil => simp [skipSB]
    | cons y body'' =>
      have hpair : ¬(x = IAC ∧ y = SE) := by
        have := (Bool.and_eq_true _ _).mp h
        exact of_decide_eq_true this.1
      have h' : noIACSE (y :: body'') = true := ((Bool.and_eq_true _ _).mp h).2
      rw [skipSB, if_neg hpair, ih h']
      simp

/-- What the decoder does with the final byte left over by an unterminated
subnegotiation block: emitted as application data unless it is the escape
byte 0xFF, which a truncated escape discards. -/
def tailEmit (body : List Nat) : List Nat :=
  match body.getLast? with
  | none => []
  | some b => if b = IAC then [] else [b]

theorem processIAC_single (b : Nat) :
    processIAC [b] = (if b = IAC then ([], []) else ([b], [])) := by
  by_cases hb : b = IAC
  · subst hb
    rw [processIAC.eq_def]
    simp
  · rw [processIAC_byte b [] hb, processIAC_nil, if_neg hb]

/-- C9 counterexample: the buffer `[0xFF, 0xFA, 0x61, 0xFF]` ends in an SB
subnegotiation with no terminating `IAC SE`, yet its final byte is *not*
emitted into the cleaned stream (it is 0xFF, discarded as a truncated
escape), contradicting the claim that the final byte is always emitted. -/
theorem iac_truncation_counterexample :
    (processIAC [0xff, 0xfa, 0x61, 0xff]).1 = [] ∧
      (0xff : Nat) ∉ (processIAC [0xff, 0xfa, 0x61, 0xff]).1 := by
  have h : processIAC [0xff, 0xfa, 0x61, 0xff] = ([], []) := by
    show processIAC (IAC :: SB :: [0x61, IAC]) = ([], [])
    rw [processIAC_sb]
    have hs : skipSB [0x61, IAC] = [IAC] := by decide
    rw [hs, processIAC_single, if_pos rfl]
  rw [h]
  simp

/-- C9 (amended): a buffer ending in an incomplete IAC sequence does not
carry the fragment over: a trailing lone 0xFF, or a trailing
`IAC DO/DONT/WILL/WONT` with no option byte, is silently discarded (no
reply, nothing cleaned); for an unterminated SB block the scan stops at the
second-to-last byte, so the buffer's final byte is emitted into the cleaned
stream — unless that byte is itself 0xFF, which is discarded as a truncated
escape (in particular an SB block with no body bytes contributes nothing). -/
theorem iac_truncated_fragments (ts : List Tok) (hwf : ∀ t ∈ ts, t.wf) :
    processIAC (encodeToks ts ++ [IAC]) = processIAC (encodeToks ts)
    ∧ (∀ c, c = DO ∨ c = DONT ∨ c = WILL ∨ c = WONT →
        processIAC (encodeToks ts ++ [IAC, c]) = processIAC (encodeToks ts))
    ∧ (∀ body, noIACSE body = true →
        processIAC (encodeToks ts ++ IAC :: SB :: body) =
          ((processIAC (encodeToks ts)).1 ++ tailEmit body,
           (processIAC (encodeToks ts)).2)) := by
  have hbase : processIAC (encodeToks ts) =
      ((ts.map specTokenCleaned).flatten, (ts.map specTokenReply).flatten) := by
    have h := processIAC_append_toks ts [] hwf
    simpa [processIAC_nil] using h
  refine ⟨?_, ?_, ?_⟩
  · rw [processIAC_append_toks ts [IAC] hwf, hbase]
    have : processIAC [IAC] = ([], []) := by
      rw [processIAC_single, if_pos rfl]
    rw [this]
    simp
  · intro c hc
    rw [processIAC_append_toks ts [IAC, c] hwf, hbase]
    have hcIAC : ¬ (c = IAC) := by
      rcases hc with h | h | h | h <;> subst h <;> decide
    have : processIAC [IAC, c] = ([], []) := by
      rw [processIAC.eq_def]
      simp [hcIAC, hc]
    rw [this]
    simp
  · intro body hbody
    rw [processIAC_append_toks ts (IAC :: SB :: body) hwf, hbase]
    rw [processIAC_sb, skipSB_no_terminator body hbody]
    cases hlast : body.getLast? with
    | none => simp [tailEmit, hlast, processIAC_nil]
    | some b =>
      simp only [tailEmit, hlast]
      rw [processIAC_single]
      by_cases hb : b = IAC
      · simp [hb]
      · simp [hb]

/-- Witness for C9 at concrete truncated buffers. -/
theorem iac_truncated_fragments_witness :
    processIAC (encodeToks [Tok.lit 0x41] ++ [IAC]) = ([0x41], []) ∧
    processIAC (encodeToks [Tok.lit 0x41] ++ [IAC, DO]) = ([0x41], []) ∧
    processIAC (encodeToks [Tok.lit 0x41] ++ IAC :: SB :: [0x61]) = ([0x41, 0x61], []) := by
  have hwf : ∀ t ∈ [Tok.lit 0x41], t.wf := by decide
  have hbase : processIAC (encodeToks [Tok.lit 0x41]) = ([0x41], []) := by
    have he : encodeToks [Tok.lit 0x41] = [0x41] := rfl
    rw [he, processIAC_single, if_neg (by decide)]
  have h := iac_truncated_fragments [Tok.lit 0x41] hwf
  refine ⟨?_, ?_, ?_⟩
  · rw [h.1, hbase]
  · rw [h.2.1 DO (Or.inl rfl), hbase]
  · rw [h.2.2 [0x61] (by decide), hbase]
    decide

/-! ## Connection lifecycle (ssh-client.ts `connect` lines 67-107,
telnet-client.ts `connect` lines 80-119 — the two loops are identical up to
the error class)

`attempt k` models the k-th (0-based) call to `attemptConnection`: `none`
means it resolved, `some e` that it rejected with `e`.  The loop counter
`connectionAttempts` starts at 0; the model's fuel is `maxRetries` minus the
counter, so the current attempt index is `R - fuel`. -/

inductive ConnState where
  | disconnected
  | connecting
  | connected
  | reconnecting
  | error
  deriving DecidableEq, Repr

structure ConnectResult (ε : Type) where
  attempts : Nat
  delays : List Nat
  finalState : ConnState
  outcome : Except ε Unit

/-- One step of the `while (this.connectionAttempts < this.maxRetries)` loop.
On a failure that is not the last permitted attempt, the loop sleeps
`retryDelay * 2 ** (connectionAttempts - 1)` ms before retrying; exhausting
the attempts sets the state to ERROR and throws the connection error with
the last underlying failure. -/
def connectLoop (ε : Type) (attempt : Nat → Option ε) (d R : Nat) :
    Nat → ConnectResult ε
  | 0 => ⟨0, [], .connecting, .ok ()⟩                 -- loop condition false (R = 0)
  | fuel + 1 =>
    match attempt (R - (fuel + 1)) with
    | none => ⟨1, [], .connected, .ok ()⟩             -- on 'ready': CONNECTED, return
    | some e =>
      if fuel = 0 then ⟨1, [], .error, .error e⟩      -- attempts >= maxRetries: ERROR, throw
      else
        ⟨(connectLoop ε attempt d R fuel).attempts + 1,
         d * 2 ^ (R - (fuel + 1)) :: (connectLoop ε attempt d R fuel).delays,
         (connectLoop ε attempt d R fuel).finalState,
         (connectLoop ε attempt d R fuel).outcome⟩

/-- `connect()` with `connectionAttempts` reset to 0. -/
def connect (ε : Type) (attempt : Nat → Option ε) (d R : Nat) : ConnectResult ε :=
  connectLoop ε attempt d R R

theorem connectLoop_spec (ε : Type) (attempt : Nat → Option ε) (d R : Nat) :
    ∀ fuel, fuel ≤ R →
      (connectLoop ε attempt d R fuel).attempts ≤ fuel
      ∧ (1 ≤ fuel → (connectLoop ε attempt d R fuel).attempts =
          (connectLoop ε attempt d R fuel).delays.length + 1)
      ∧ (∀ j, j < (connectLoop ε attempt d R fuel).delays.length →
          (connectLoop ε attempt d R fuel).delays[j]? =
            some (d * 2 ^ (R - fuel + j)))
      ∧ ((∀ k, R - fuel ≤ k → k < R → attempt k ≠ none) → 1 ≤ fuel →
          (connectLoop ε attempt d R fuel).attempts = fuel
          ∧ (connectLoop ε attempt d R fuel).finalState = .error
          ∧ (∀ e, attempt (R - 1) = some e →
              (connectLoop ε attempt d R fuel).outcome = .error e)) := by
  intro fuel
  induction fuel with
  | zero =>
    intro _
    refine ⟨by simp [connectLoop], by omega, ?_, by omega⟩
    intro j h
    simp [connectLoop] at h
  | succ fuel ih =>
    intro hle
    have hk : R - (fuel + 1) < R := by omega
    cases hatt : attempt (R - (fuel + 1)) with
    | none =>
      have heq : connectLoop ε attempt d R (fuel + 1) =
          ⟨1, [], .connected, .ok ()⟩ := by
        rw [connectLoop, hatt]
      refine ⟨?_, ?_, ?_, ?_⟩
      · rw [heq]; exact Nat.le_add_left 1 fuel
      · intro _; rw [heq]; rfl
      · intro j h
        rw [heq] at h
        simp at h
      · intro hall _
        exact absurd hatt (hall _ (le_refl _) hk)
    | some e =>
      by_cases hf : fuel = 0
      · subst hf
        have heq : connectLoop ε attempt d R (0 + 1) =
            ⟨1, [], .error, .error e⟩ := by
          rw [connectLoop, hatt]
          rfl
        refine ⟨by rw [heq], by intro _; rw [heq]; rfl, ?_, ?_⟩
        · intro j h
          rw [heq] at h
          simp at h
        · intro hall _
          have hatt' : attempt (R - 1) = some e := by simpa using hatt
          refine ⟨by rw [heq], by rw [heq], ?_⟩
          intro e' he'
          rw [hatt'] at he'
          cases he'
          rw [heq]
      · have hfuel1 : 1 ≤ fuel := by omega
        have ihh := ih (by omega)
        have heq : connectLoop ε attempt d R (fuel + 1) =
            ⟨(connectLoop ε attempt d R fuel).attempts + 1,
             d * 2 ^ (R - (fuel + 1)) :: (connectLoop ε attempt d R fuel).delays,
             (connectLoop ε attempt d R fuel).finalState,
             (connectLoop ε attempt d R fuel).outcome⟩ := by
          rw [connectLoop, hatt]
          simp [hf]
        have h1 : (connectLoop ε attempt d R (fuel + 1)).attempts =
            (connectLoop ε attempt d R fuel).attempts + 1 := by
          rw [heq]
        have h2 : (connectLoop ε attempt d R (fuel + 1)).delays =
            d * 2 ^ (R - (fuel + 1)) :: (connectLoop ε attempt d R fuel).delays := by
          rw [heq]
        have h3 : (connectLoop ε attempt d R (fuel + 1)).finalState =
            (connectLoop ε attempt d R fuel).finalState := by
          rw [heq]
        have h4 : (connectLoop ε attempt d R (fuel + 1)).outcome =
            (connectLoop ε attempt d R fuel).outcome := by
          rw [heq]
        refine ⟨?_, ?_, ?_, ?_⟩
        · rw [h1]
          have := ihh.1
          omega
        · intro _
          rw [h1, h2]
          simp only [List.length_cons]
          have := ihh.2.1 hfuel1
          omega
        · intro j hj
          rw [h2] at hj ⊢
          cases j with
          | zero =>
            simp only [List.getElem?_cons_zero]
            rfl
          | succ j' =>
            simp only [List.getElem?_cons_succ]
            simp only [List.length_cons] at hj
            have hj' : j' < (connectLoop ε attempt d R fuel).delays.length := by
              omega
            rw [ihh.2.2.1 j' hj']
            have harg : R - fuel + j' = R - (fuel + 1) + (j' + 1) := by omega
            rw [harg]
        · intro hall _
          have hall' : ∀ k, R - fuel ≤ k → k < R → attempt k ≠ none := by
            intro k hk1 hk2
            exact hall k (by omega) hk2
          have hrec := ihh.2.2.2 hall' hfuel1
          refine ⟨?_, ?_, ?_⟩
          · rw [h1, hrec.1]
          · rw [h3]; exact hrec.2.1
          · intro e' he'
            rw [h4]; exact hrec.2.2 e' he'

/-- C2: `connect()` makes at most `maxRetries` single attempts; the delay
inserted before retry attempt `i` (for `2 ≤ i ≤` the number of attempts
made) is `retryDelay * 2 ^ (i - 2)` (pure exponential backoff); and when
every attempt fails, exactly `maxRetries` attempts occur, the state becomes
Error and a connection error carrying the last underlying failure is
raised.  Models both `BrocadeSSHClient.connect` and
`BrocadeTelnetClient.connect`, whose retry loops are identical. -/
theorem connect_backoff (ε : Type) (attempt : Nat → Option ε) (d R : Nat)
    (hR : 1 ≤ R) :
    (connect ε attempt d R).attempts ≤ R
    ∧ (connect ε attempt d R).attempts = (connect ε attempt d R).delays.length + 1
    ∧ (∀ i, 2 ≤ i → i ≤ (connect ε attempt d R).attempts →
        (connect ε attempt d R).delays[i - 2]? = some (d * 2 ^ (i - 2)))
    ∧ ((∀ k, k < R → attempt k ≠ none) →
        (connect ε attempt d R).attempts = R
        ∧ (connect ε attempt d R).finalState = .error
        ∧ (∀ e, attempt (R - 1) = some e →
            (connect ε attempt d R).outcome = .error e)) := by
  have h := connectLoop_spec ε attempt d R R (le_refl R)
  simp only [connect]
  refine ⟨h.1, h.2.1 hR, ?_, ?_⟩
  · intro i hi2 hile
    have hlen := h.2.1 hR
    have hlt : i - 2 < (connectLoop ε attempt d R R).delays.length := by
      omega
    have := h.2.2.1 (i - 2) hlt
    rw [this]
    have harg : R - R + (i - 2) = i - 2 := by omega
    rw [harg]
  · intro hall
    exact h.2.2.2 (fun k _ hk2 => hall k hk2) hR

/-- Witness for C2: three failing attempts with base delay 100 produce
delays [100, 200] (i.e. d*2^0 before attempt 2 and d*2^1 before attempt 3),
three attempts in total, the Error state and the last underlying failure. -/
theorem connect_backoff_witness :
    1 ≤ 3
    ∧ (connect Nat (fun k => some k) 100 3).attempts = 3
    ∧ (connect Nat (fun k => some k) 100 3).delays = [100, 200]
    ∧ (connect Nat (fun k => some k) 100 3).finalState = .error
    ∧ (connect Nat (fun k => some k) 100 3).outcome = .error 2 := by
  have h := connect_backoff Nat (fun k => some k) 100 3 (by decide)
  have hall := h.2.2.2 (fun k _ => by simp)
  exact ⟨by decide, hall.1, by decide, hall.2.1, hall.2.2 2 rfl⟩

/-! ## JavaScript string primitives used by the telnet engine

JS strings are modelled as `List Char`.  `jsWS` is the whitespace class
used by `trim()` and the regex class `\s` (ASCII part). -/

def jsWS (c : Char) : Bool :=
  c = ' ' || c = '\t' || c = '\n' || c = '\r' || c = '\x0b' || c = '\x0c'

/-- JS `String.prototype.trim()`. -/
def trimChars (l : List Char) : List Char :=
  ((l.dropWhile fun c => jsWS c).reverse.dropWhile fun c => jsWS c).reverse

/-- JS `String.prototype.toLowerCase()` (ASCII). -/
def toLowerChars (l : List Char) : List Char := l.map Char.toLower

/-- JS `text.split('\n')`. -/
def splitLines : List Char → List (List Char)
  | [] => [[]]
  | c :: r =>
    if c = '\n' then [] :: splitLines r
    else
      match splitLines r with
      | h :: t => (c :: h) :: t
      | [] => [[c]]

/-- JS `lines.join('\n')`. -/
def joinLines : List (List Char) → List Char
  | [] => []
  | [l] => l
  | l :: ls => l ++ '\n' :: joinLines ls

/-- `lines[lines.length - 1]` (split never yields an empty array). -/
def lastLine (l : List Char) : List Char := (splitLines l).getLastD []

/-! ## executeMultipleCommands (ssh-client.ts lines 410-425,
telnet-client.ts lines 537-565)

`exec` models `this.executeCommand`: given the command, the timeout passed
down and the session state, it either resolves with output or rejects.
The batch loop catches any rejection and pushes the empty string. -/

def execValue {ε : Type} (r : Except ε (List Char)) : List Char :=
  match r with
  | .ok out => out
  | .error _ => []

/-- The shared `for ... { try { results.push(await exec ...) } catch { results.push('') } }`
loop, threading the session state left to right. -/
def batchGo {σ ε : Type} (step : List Char → σ → Except ε (List Char) × σ) :
    List (List Char) → σ → List (List Char) × σ
  | [], s => ([], s)
  | c :: cs, s =>
    (execValue (step c s).1 :: (batchGo step cs (step c s).2).1,
     (batchGo step cs (step c s).2).2)

/-- `BrocadeSSHClient.executeMultipleCommands`: passes the caller's timeout
through unchanged. -/
def sshExecuteMultipleCommands {σ ε : Type}
    (exec : List Char → Option Nat → σ → Except ε (List Char) × σ)
    (commands : List (List Char)) (timeout : Option Nat) (s : σ) :
    List (List Char) × σ :=
  batchGo (fun c st => exec c timeout st) commands s

/-- Per-command timeout choice of `BrocadeTelnetClient.executeMultipleCommands`:
the full timeout for `show` commands, `min(timeout, 10000)` otherwise. -/
def telnetEffectiveTimeout (command : List Char) (defaultTimeout : Nat) : Nat :=
  if ("show".toList).isPrefixOf (toLowerChars (trimChars command)) then defaultTimeout
  else min defaultTimeout 10000

/-- `BrocadeTelnetClient.executeMultipleCommands`:
`defaultTimeout = timeout ?? config.timeout ?? 30000`, then the loop. -/
def telnetExecuteMultipleCommands {σ ε : Type}
    (exec : List Char → Nat → σ → Except ε (List Char) × σ)
    (commands : List (List Char)) (timeout configTimeout : Option Nat) (s : σ) :
    List (List Char) × σ :=
  batchGo
    (fun c st => exec c (telnetEffectiveTimeout c (timeout.getD (configTimeout.getD 30000))) st)
    commands s

theorem batchGo_length {σ ε : Type} (step : List Char → σ → Except ε (List Char) × σ) :
    ∀ (cmds : List (List Char)) (s : σ), (batchGo step cmds s).1.length = cmds.length := by
  intro cmds
  induction cmds with
  | nil => intro s; simp [batchGo]
  | cons c cs ih => intro s; simp [batchGo, ih]

theorem batchGo_get {σ ε : Type} (step : List Char → σ → Except ε (List Char) × σ) :
    ∀ (cmds : List (List Char)) (s : σ) (i : Nat) (c : List Char),
      cmds[i]? = some c →
      (batchGo step cmds s).1[i]? =
        some (execValue (step c (batchGo step (cmds.take i) s).2).1) := by
  intro cmds
  induction cmds with
  | nil =>
    intro s i c h
    simp at h
  | cons c0 cs ih =>
    intro s i c h
    cases i with
    | zero =>
      simp only [List.getElem?_cons_zero, Option.some.injEq] at h
      subst h
      simp [batchGo]
    | succ i' =>
      simp only [List.getElem?_cons_succ] at h
      have := ih (step c0 s).2 i' c h
      simp only [batchGo, List.getElem?_cons_succ]
      rw [this]

/-- C3: on both engines, `executeMultipleCommands` runs the commands
strictly sequentially (the state seen by command `i` is the state after the
first `i` commands), never raises (it is total, returning a plain list),
and returns a list of exactly the input's length in which a failed
command's slot holds the empty string and every other slot holds that
command's output. -/
theorem executeMultipleCommands_batch {σ τ ε δ : Type}
    (exec : List Char → Option Nat → σ → Except ε (List Char) × σ)
    (texec : List Char → Nat → τ → Except δ (List Char) × τ)
    (cmds tcmds : List (List Char)) (timeout configTimeout : Option Nat)
    (s : σ) (t : τ) :
    ((sshExecuteMultipleCommands exec cmds timeout s).1.length = cmds.length
     ∧ ∀ i c, cmds[i]? = some c →
         (sshExecuteMultipleCommands exec cmds timeout s).1[i]? =
           some (execValue (exec c timeout
             (sshExecuteMultipleCommands exec (cmds.take i) timeout s).2).1))
    ∧ ((telnetExecuteMultipleCommands texec tcmds timeout configTimeout t).1.length
         = tcmds.length
       ∧ ∀ i c, tcmds[i]? = some c →
           (telnetExecuteMultipleCommands texec tcmds timeout configTimeout t).1[i]? =
             some (execValue (texec c
               (telnetEffectiveTimeout c (timeout.getD (configTimeout.getD 30000)))
               (telnetExecuteMultipleCommands texec (tcmds.take i) timeout configTimeout t).2).1)) := by
  refine ⟨⟨batchGo_length _ cmds s, ?_⟩, ⟨batchGo_length _ tcmds t, ?_⟩⟩
  · intro i c h
    exact batchGo_get _ cmds s i c h
  · intro i c h
    exact batchGo_get _ tcmds t i c h

/-- Witness for C3: three commands where the middle one fails give a
3-element result with the empty string at index 1. -/
theorem executeMultipleCommands_batch_witness :
    (sshExecuteMultipleCommands
        (fun c _ (n : Nat) => (if n = 1 then Except.error () else Except.ok (c ++ ['!']), n + 1))
        [['a'], ['b'], ['c']] none 0).1.length = 3
    ∧ (sshExecuteMultipleCommands
        (fun c _ (n : Nat) => (if n = 1 then Except.error () else Except.ok (c ++ ['!']), n + 1))
        [['a'], ['b'], ['c']] none 0).1[1]? = some []
    ∧ (telnetExecuteMultipleCommands
        (fun c (_ : Nat) (n : Nat) => (if n = 1 then Except.error () else Except.ok (c ++ ['!']), n + 1))
        [['a'], ['b'], ['c']] none none 0).1[1]? = some [] := by
  have h := executeMultipleCommands_batch
    (fun c _ (n : Nat) => (if n = 1 then Except.error () else Except.ok (c ++ ['!']), n + 1))
    (fun c (_ : Nat) (n : Nat) => (if n = 1 then Except.error () else Except.ok (c ++ ['!']), n + 1))
    [['a'], ['b'], ['c']] [['a'], ['b'], ['c']] none none 0 0
  refine ⟨h.1.1, ?_, ?_⟩
  · rw [h.1.2 1 ['b'] rfl]
    rfl
  · rw [h.2.2 1 ['b'] rfl]
    rfl

/-! ## SSH executeCommand (ssh-client.ts lines 340-405)

The exec channel's event trace is the list of stdout chunks, stderr chunks
and the close event (`code : Option Int`, `null` modelled as `none`).  The
promise settles on the first close; a trace with no close times out. -/

inductive ChanEvent where
  | out (s : List Char)
  | err (s : List Char)
  | close (code : Option Int)
  deriving DecidableEq, Repr

/-- `CommandExecutionError{command, exitCode, details.stderr}` as raised on
a non-zero close. -/
structure CommandExecutionError where
  command : List Char
  exitCode : Option Int
  stderrOutput : List Char
  deriving DecidableEq, Repr

inductive SSHExecOutcome where
  | ok (output : List Char)
  | execError (e : CommandExecutionError)
  | timedOut (command : List Char) (ms : Nat)
  deriving DecidableEq, Repr

/-- The `stream.on('close'/'data'/stderr...)` accumulation loop of
`executeCommand`: `output` collects stdout chunks, `errorOutput` stderr
chunks; on close, a non-null non-zero code rejects with
`CommandExecutionError`, otherwise the promise resolves with `output`. -/
def runExecEvents (command : List Char) (timeoutMs : Nat) :
    List Char → List Char → List ChanEvent → SSHExecOutcome
  | _, _, [] => .timedOut command timeoutMs
  | output, errorOutput, ev :: evs =>
    match ev with
    | .out s => runExecEvents command timeoutMs (output ++ s) errorOutput evs
    | .err s => runExecEvents command timeoutMs output (errorOutput ++ s) evs
    | .close code =>
      if code ≠ none ∧ code ≠ some 0 then
        .execError ⟨command, code, errorOutput⟩
      else
        .ok output

/-- `executeCommand` over a channel event trace. -/
def sshExecuteCommand (command : List Char) (timeoutMs : Nat)
    (events : List ChanEvent) : SSHExecOutcome :=
  runExecEvents command timeoutMs [] [] events

def isClose : ChanEvent → Bool
  | .close _ => true
  | _ => false

/-- Concatenation of the stdout chunks of a trace. -/
def stdoutConcat : List ChanEvent → List Char
  | [] => []
  | .out s :: evs => s ++ stdoutConcat evs
  | _ :: evs => stdoutConcat evs

/-- Concatenation of the stderr chunks of a trace. -/
def stderrConcat : List ChanEvent → List Char
  | [] => []
  | .err s :: evs => s ++ stderrConcat evs
  | _ :: evs => stderrConcat evs

theorem runExecEvents_close (command : List Char) (timeoutMs : Nat) :
    ∀ (pre : List ChanEvent) (output errorOutput : List Char)
      (code : Option Int) (post : List ChanEvent),
      (∀ e ∈ pre, isClose e = false) →
      runExecEvents command timeoutMs output errorOutput (pre ++ .close code :: post) =
        if code ≠ none ∧ code ≠ some 0 then
          .execError ⟨command, code, errorOutput ++ stderrConcat pre⟩
        else
          .ok (output ++ stdoutConcat pre) := by
  intro pre
  induction pre with
  | nil =>
    intro output errorOutput code post _
    simp [runExecEvents, stdoutConcat, stderrConcat]
  | cons ev evs ih =>
    intro output errorOutput code post hnc
    have hev : isClose ev = false := hnc ev (by simp)
    have hrest : ∀ e ∈ evs, isClose e = false := fun e he => hnc e (by simp [he])
    cases ev with
    | out s =>
      rw [List.cons_append, runExecEvents, ih (output ++ s) errorOutput code post hrest]
      simp [stdoutConcat, stderrConcat]
    | err s =>
      rw [List.cons_append, runExecEvents, ih output (errorOutput ++ s) code post hrest]
      simp [stdoutConcat, stderrConcat]
    | close c => simp [isClose] at hev

/-- Helper: any `execError` outcome carries a non-null, non-zero exit code. -/
theorem runExecEvents_error_code (command : List Char) (timeoutMs : Nat) :
    ∀ (events : List ChanEvent) (output errorOutput : List Char)
      (e : CommandExecutionError),
      runExecEvents command timeoutMs output errorOutput events = .execError e →
      e.exitCode ≠ none ∧ e.exitCode ≠ some 0 := by
  intro events
  induction events with
  | nil =>
    intro output errorOutput e h
    simp [runExecEvents] at h
  | cons ev evs ih =>
    intro output errorOutput e h
    cases ev with
    | out s => exact ih _ _ e (by rw [runExecEvents] at h; exact h)
    | err s => exact ih _ _ e (by rw [runExecEvents] at h; exact h)
    | close c =>
      rw [runExecEvents] at h
      by_cases hc : c ≠ none ∧ c ≠ some 0
      · rw [if_pos hc] at h
        cases h
        exact hc
      · rw [if_neg hc] at h
        cases h

/-- C4: when the exec channel closes with a non-zero (non-null) exit code,
`executeCommand` raises `CommandExecutionError` carrying the command, the
exit code and the accumulated stderr; when it closes with exit code 0, it
resolves with the concatenation of the stdout chunks seen so far. -/
theorem sshExecuteCommand_close_semantics (command : List Char) (timeoutMs : Nat)
    (pre post : List ChanEvent) (k : Int)
    (hpre : ∀ e ∈ pre, isClose e = false) (hk : k ≠ 0) :
    sshExecuteCommand command timeoutMs (pre ++ .close (some k) :: post) =
      .execError ⟨command, some k, stderrConcat pre⟩
    ∧ sshExecuteCommand command timeoutMs (pre ++ .close (some 0) :: post) =
      .ok (stdoutConcat pre) := by
  constructor
  · rw [sshExecuteCommand, runExecEvents_close command timeoutMs pre [] [] (some k) post hpre]
    rw [if_pos ⟨by simp, by simpa using hk⟩]
    simp
  · rw [sshExecuteCommand, runExecEvents_close command timeoutMs pre [] [] (some 0) post hpre]
    rw [if_neg (by simp)]
    simp

/-- Witness for C4 at the spec's end-to-end scenario: stdout then a zero
close resolves with the output; stderr then close code 1 raises the error
with the captured stderr. -/
theorem sshExecuteCommand_close_semantics_witness :
    sshExecuteCommand ("show version".toList) 30000
        [.out ("ICX6450 v8.0.95d".toList), .close (some 0)] =
      .ok ("ICX6450 v8.0.95d".toList)
    ∧ sshExecuteCommand ("show version".toList) 30000
        [.err ("bad command".toList), .close (some 1)] =
      .execError ⟨"show version".toList, some 1, "bad command".toList⟩ := by
  have h1 := sshExecuteCommand_close_semantics ("show version".toList) 30000
    [.out ("ICX6450 v8.0.95d".toList)] [] 1 (by intro e he; simp at he; subst he; rfl)
    (by decide)
  have h2 := sshExecuteCommand_close_semantics ("show version".toList) 30000
    [.err ("bad command".toList)] [] 1 (by intro e he; simp at he; subst he; rfl)
    (by decide)
  simp only [List.singleton_append] at h1 h2
  constructor
  · rw [h1.2]
    rfl
  · rw [h2.1]
    rfl

/-- C10: a close with a `null` exit code (no exit status reported) resolves
successfully with the accumulated stdout; a `CommandExecutionError` arises
only from a close with a non-null, non-zero code. -/
theorem sshExecuteCommand_null_close (command : List Char) (timeoutMs : Nat)
    (pre post events : List ChanEvent)
    (hpre : ∀ e ∈ pre, isClose e = false) :
    sshExecuteCommand command timeoutMs (pre ++ .close none :: post) =
      .ok (stdoutConcat pre)
    ∧ (∀ e, sshExecuteCommand command timeoutMs events = .execError e →
        e.exitCode ≠ none ∧ e.exitCode ≠ some 0) := by
  constructor
  · rw [sshExecuteCommand, runExecEvents_close command timeoutMs pre [] [] none post hpre]
    rw [if_neg (by simp)]
    simp
  · intro e h
    exact runExecEvents_error_code command timeoutMs events [] [] e h

/-- Witness for C10: stdout then a null close resolves with the output. -/
theorem sshExecuteCommand_null_close_witness :
    sshExecuteCommand ("show version".toList) 30000
        [.out ("ICX6450 v8.0.95d".toList), .close none] =
      .ok ("ICX6450 v8.0.95d".toList) := by
  have h := sshExecuteCommand_null_close ("show version".toList) 30000
    [.out ("ICX6450 v8.0.95d".toList)] [] [] (by intro e he; simp at he; subst he; rfl)
  have h1 := h.1
  simp only [List.singleton_append] at h1
  rw [h1]
  rfl

/-! ## ANSI stripping (telnet-client.ts `stripAnsi`, lines 670-675)

The three regex substitutions are implemented as three scans.  Each scan
consumes at least one character per step, so running it with fuel equal to
the input length computes the full substitution; the fuel only makes the
recursion structural. -/

def isCSIParam (c : Char) : Bool := c.isDigit || c = ';'

def isAsciiAlpha (c : Char) : Bool :=
  ('a' ≤ c && c ≤ 'z') || ('A' ≤ c && c ≤ 'Z')

/-- `text.replace(/\x1b\[[0-9;]*[a-zA-Z]/g, '')`: at `ESC [` consume the
parameter run; a terminating letter completes a match (dropped), anything
else leaves the scanned characters in place and the scan resumes at the
non-parameter character. -/
def stripCSIFuel : Nat → List Char → List Char
  | 0, l => l
  | fuel + 1, l =>
    match l with
    | [] => []
    | c :: rest =>
      if c = '\x1b' then
        match rest with
        | [] => [c]
        | c2 :: r2 =>
          if c2 = '[' then
            match r2.dropWhile isCSIParam with
            | c3 :: r3 =>
              if isAsciiAlpha c3 then stripCSIFuel fuel r3
              else c :: c2 :: (r2.takeWhile isCSIParam ++ stripCSIFuel fuel (c3 :: r3))
            | [] => c :: c2 :: r2
          else c :: stripCSIFuel fuel rest
      else c :: stripCSIFuel fuel rest

def stripCSI (l : List Char) : List Char := stripCSIFuel l.length l

/-- `.replace(/\x1b\][^\x07]*\x07/g, '')`: an `ESC ]` followed somewhere by
BEL drops everything through the first BEL; with no BEL in the remainder no
further match is possible. -/
def stripOSCFuel : Nat → List Char → List Char
  | 0, l => l
  | fuel + 1, l =>
    match l with
    | [] => []
    | c :: rest =>
      if c = '\x1b' then
        match rest with
        | [] => [c]
        | c2 :: r2 =>
          if c2 = ']' then
            match r2.dropWhile (fun x => !(x = '\x07')) with
            | _ :: r3 => stripOSCFuel fuel r3
            | [] => c :: c2 :: r2
          else c :: stripOSCFuel fuel rest
      else c :: stripOSCFuel fuel rest

def stripOSC (l : List Char) : List Char := stripOSCFuel l.length l

def isCharsetTag (c : Char) : Bool := c.isDigit || c = 'A' || c = 'B'

/-- `.replace(/\x1b[()][0-9A-B]/g, '')`. -/
def stripCharset : List Char → List Char
  | [] => []
  | c :: c2 :: c3 :: r3 =>
    if c = '\x1b' && (c2 = '(' || c2 = ')') && isCharsetTag c3 then stripCharset r3
    else c :: stripCharset (c2 :: c3 :: r3)
  | c :: rest => c :: stripCharset rest

def stripAnsi (l : List Char) : List Char := stripCharset (stripOSC (stripCSI l))

/-! ## Output cleaning (telnet-client.ts `cleanOutput`, lines 625-665) -/

/-- Case-insensitive match of `--More--` at the head of the list. -/
def matchesMore (l : List Char) : Bool :=
  toLowerChars (l.take 8) = "--more--".toList

/-- The global case-insensitive removal of `--More--` with trailing `\s*`
(fuelled like the ANSI scans). -/
def stripMoreFuel : Nat → List Char → List Char
  | 0, l => l
  | fuel + 1, l =>
    match l with
    | [] => []
    | c :: rest =>
      if matchesMore (c :: rest) then stripMoreFuel fuel ((rest.drop 7).dropWhile jsWS)
      else c :: stripMoreFuel fuel rest

def stripMore (l : List Char) : List Char := stripMoreFuel l.length l

/-- `text.replace(/[\b]+\s*[\b]*/g, '')` — `[\b]` is the backspace
character 0x08. -/
def stripBSFuel : Nat → List Char → List Char
  | 0, l => l
  | fuel + 1, l =>
    match l with
    | [] => []
    | c :: rest =>
      if c = '\x08' then
        stripBSFuel fuel
          (((rest.dropWhile fun x => x = '\x08').dropWhile jsWS).dropWhile fun x => x = '\x08')
      else c :: stripBSFuel fuel rest

def stripBS (l : List Char) : List Char := stripBSFuel l.length l

/-- The control-character class `[\x00-\x08\x0b\x0c\x0e-\x1f]` removed by
`cleanOutput` (note: it spares tab 0x09, newline 0x0a and CR 0x0d). -/
def isStrippedCtrl (c : Char) : Bool :=
  c.toNat ≤ 0x08 || c.toNat = 0x0b || c.toNat = 0x0c ||
    (0x0e ≤ c.toNat && c.toNat ≤ 0x1f)

def stripCtrl (l : List Char) : List Char := l.filter fun c => !(isStrippedCtrl c)

/-! ## Prompt patterns (telnet-client.ts lines 55, 233-246)

`promptPattern` is either the initial default `/.*[>#]\s*$/` or the learned
`` `${base}(?:\([^)]*\))?\s*[>#]\s*$` `` whose `base` is the learned prompt
up to its first `(` (regex-escaping followed by splitting on the escaped
`\(` makes the base a literal).  `promptTest` decides `pattern.test(s)` by
parsing from the right; the learned base never contains whitespace (it
comes from a `\S+` match), which the maximal whitespace strip relies on. -/

inductive PromptPat where
  | dflt
  | learned (base : List Char)
  deriving DecidableEq, Repr

/-- All suffixes of a reversed string reachable from a closing `)` by
crossing only non-`)` characters and one `(`: the candidate remainders for
the `\([^)]*\)` group. -/
def parenCandidates : List Char → List (List Char)
  | [] => []
  | c :: r =>
    if c = ')' then []
    else if c = '(' then r :: parenCandidates r
    else parenCandidates r

def promptTest (p : PromptPat) (s : List Char) : Bool :=
  match p with
  | .dflt =>
    match s.reverse.dropWhile jsWS with
    | c :: _ => c = '>' || c = '#'
    | [] => false
  | .learned base =>
    match s.reverse.dropWhile jsWS with
    | c :: r2 =>
      if c = '>' || c = '#' then
        let r3 := r2.dropWhile jsWS
        if base.reverse.isPrefixOf r3 then true
        else
          match r3 with
          | ')' :: r4 => (parenCandidates r4).any fun r5 => base.reverse.isPrefixOf r5
          | _ => false
      else false
    | [] => false

/-- Was the echoed command line found (`trimmed === command.trim()`)? -/
def cleanFound (cmdTrim : List Char) : List (List Char) → Bool
  | [] => false
  | line :: ls => if trimChars line = cmdTrim then true else cleanFound cmdTrim ls

/-- The per-line loop of `cleanOutput`: skip everything before the echoed
command, skip a prompt-matching line equal (as a string) to the last line,
keep the rest. -/
def cleanLines (pat : PromptPat) (cmdTrim : List Char) (lastL : List Char) :
    List (List Char) → Bool → List (List Char)
  | [], _ => []
  | line :: ls, found =>
    if found = false ∧ trimChars line = cmdTrim then
      cleanLines pat cmdTrim lastL ls true
    else if found = true ∧ promptTest pat (trimChars line) = true ∧ line = lastL then
      cleanLines pat cmdTrim lastL ls found
    else if found = true then
      line :: cleanLines pat cmdTrim lastL ls found
    else
      cleanLines pat cmdTrim lastL ls found

/-- `cleanOutput(raw, command)`: ANSI strip, `--More--` removal, backspace
removal, control-character removal, then the line loop; if the echoed
command was never found, instead drop every prompt-matching line; finally
trim. -/
def cleanOutput (pat : PromptPat) (raw command : List Char) : List Char :=
  let text := stripCtrl (stripBS (stripMore (stripAnsi raw)))
  let lines := splitLines text
  let lastL := lines.getLastD []
  if cleanFound (trimChars command) lines then
    trimChars (joinLines (cleanLines pat (trimChars command) lastL lines false))
  else
    trimChars (joinLines (lines.filter fun l => !(promptTest pat (trimChars l))))

theorem dropWhile_mem {α : Type} (p : α → Bool) (l : List α) (a : α)
    (h : a ∈ l.dropWhile p) : a ∈ l := by
  induction l with
  | nil => simp [List.dropWhile] at h
  | cons x r ih =>
    rw [List.dropWhile_cons] at h
    split at h
    · exact List.mem_cons_of_mem _ (ih h)
    · exact h

theorem trimChars_mem (l : List Char) (c : Char) (h : c ∈ trimChars l) : c ∈ l := by
  rw [trimChars] at h
  rw [List.mem_reverse] at h
  have h2 := dropWhile_mem _ _ _ h
  rw [List.mem_reverse] at h2
  exact dropWhile_mem _ _ _ h2

theorem splitLines_ne_nil (l : List Char) : splitLines l ≠ [] := by
  induction l with
  | nil => simp [splitLines]
  | cons x r ih =>
    rw [splitLines]
    split
    · simp
    · cases hsp : splitLines r with
      | nil => exact absurd hsp ih
      | cons h0 t0 => simp [hsp]

theorem mem_splitLines (l : List Char) :
    ∀ L ∈ splitLines l, ∀ c ∈ L, c ∈ l := by
  induction l with
  | nil =>
    intro L hL c hc
    simp [splitLines] at hL
    subst hL
    simp at hc
  | cons x r ih =>
    intro L hL c hc
    rw [splitLines] at hL
    by_cases hx : x = '\n'
    · rw [if_pos hx] at hL
      rcases List.mem_cons.mp hL with h1 | h2
      · subst h1; simp at hc
      · exact List.mem_cons_of_mem _ (ih L h2 c hc)
    · rw [if_neg hx] at hL
      cases hsp : splitLines r with
      | nil => exact absurd hsp (splitLines_ne_nil r)
      | cons h0 t0 =>
        rw [hsp] at hL
        rcases List.mem_cons.mp hL with h1 | h2
        · subst h1
          rcases List.mem_cons.mp hc with h3 | h4
          · exact h3 ▸ List.mem_cons_self x r
          · have : h0 ∈ splitLines r := by rw [hsp]; exact List.mem_cons_self _ _
            exact List.mem_cons_of_mem _ (ih h0 this c h4)
        · have : L ∈ splitLines r := by rw [hsp]; exact List.mem_cons_of_mem _ h2
          exact List.mem_cons_of_mem _ (ih L this c hc)

theorem joinLines_mem (ls : List (List Char)) (c : Char) (h : c ∈ joinLines ls) :
    c = '\n' ∨ ∃ L ∈ ls, c ∈ L := by
  induction ls with
  | nil => simp [joinLines] at h
  | cons L ls ih =>
    cases ls with
    | nil =>
      refine Or.inr ⟨L, by simp, ?_⟩
      simpa [joinLines] using h
    | cons L2 ls2 =>
      rw [show joinLines (L :: L2 :: ls2) = L ++ '\n' :: joinLines (L2 :: ls2) from rfl] at h
      rcases List.mem_append.mp h with h1 | h2
      · exact Or.inr ⟨L, by simp, h1⟩
      · rcases List.mem_cons.mp h2 with h3 | h4
        · exact Or.inl h3
        · rcases ih h4 with h5 | ⟨M, hM, hcM⟩
          · exact Or.inl h5
          · exact Or.inr ⟨M, List.mem_cons_of_mem _ hM, hcM⟩

theorem cleanLines_mem (pat : PromptPat) (ct lastL : List Char) :
    ∀ (ls : List (List Char)) (found : Bool) (line : List Char),
      line ∈ cleanLines pat ct lastL ls found → line ∈ ls := by
  intro ls
  induction ls with
  | nil =>
    intro found line h
    simp [cleanLines] at h
  | cons L ls ih =>
    intro found line h
    rw [cleanLines] at h
    split at h
    · exact List.mem_cons_of_mem _ (ih _ _ h)
    · split at h
      · exact List.mem_cons_of_mem _ (ih _ _ h)
      · split at h
        · rcases List.mem_cons.mp h with h1 | h2
          · exact h1 ▸ List.mem_cons_self _ _
          · exact List.mem_cons_of_mem _ (ih _ _ h2)
        · exact List.mem_cons_of_mem _ (ih _ _ h)

theorem stripCtrl_mem (l : List Char) (c : Char) (h : c ∈ stripCtrl l) :
    isStrippedCtrl c = false := by
  rw [stripCtrl] at h
  have h2 := (List.mem_filter.mp h).2
  simpa using h2

/-- C7 counterexample: a carriage return (0x0d) — a non-printable control
byte that is neither newline nor tab — survives output cleaning, because
the removed class `[\x00-\x08\x0b\x0c\x0e-\x1f]` spares it. -/
theorem cleanOutput_counterexample :
    '\r' ∈ cleanOutput PromptPat.dflt
        ("show ver\r\nA\rB\r\nswitch#".toList) ("show ver".toList)
    ∧ ¬ ('\r' = '\n') ∧ ¬ ('\r' = '\t')
    ∧ '\r'.toNat < 0x20 := by
  decide

/-- C7 (amended): output cleaning strips the echoed command line, the
trailing prompt line, one left-to-right pass of `--More--` markers and
backspace-overwrite runs, and the non-printable control bytes
`[\x00-\x08\x0b\x0c\x0e-\x1f]` — all controls other than newline, tab and
carriage return; no character of that removed class ever survives, and
cleaning the raw accumulation `"show ver\r\nOK\r\nswitch#"` for the sent
command `"show ver"` yields exactly `"OK"`. -/
theorem cleanOutput_spec (pat : PromptPat) (raw command : List Char) :
    (∀ c ∈ cleanOutput pat raw command, isStrippedCtrl c = false)
    ∧ cleanOutput (.learned ("switch".toList))
        ("show ver\r\nOK\r\nswitch#".toList) ("show ver".toList) = "OK".toList := by
  constructor
  · intro c hc
    simp only [cleanOutput] at hc
    split at hc
    · have h1 := trimChars_mem _ _ hc
      rcases joinLines_mem _ _ h1 with h2 | ⟨L, hL, hcL⟩
      · subst h2; decide
      · have h3 := cleanLines_mem _ _ _ _ _ _ hL
        have h4 := mem_splitLines _ L h3 c hcL
        exact stripCtrl_mem _ _ h4
    · have h1 := trimChars_mem _ _ hc
      rcases joinLines_mem _ _ h1 with h2 | ⟨L, hL, hcL⟩
      · subst h2; decide
      · have h3 := (List.mem_filter.mp hL).1
        have h4 := mem_splitLines _ L h3 c hcL
        exact stripCtrl_mem _ _ h4
  · decide

/-- Witness for C7: the surviving characters of the concrete cleaning are
outside the removed control class. -/
theorem cleanOutput_spec_witness :
    'O' ∈ cleanOutput (.learned ("switch".toList))
        ("show ver\r\nOK\r\nswitch#".toList) ("show ver".toList)
    ∧ isStrippedCtrl 'O' = false :=
  ⟨by decide,
   (cleanOutput_spec (.learned ("switch".toList))
      ("show ver\r\nOK\r\nswitch#".toList) ("show ver".toList)).1 'O' (by decide)⟩

/-! ## Telnet executeCommand (telnet-client.ts lines 466-530)

A run is modelled by the list of IAC-cleaned text chunks delivered by the
socket before the deadline fires (the command write happens synchronously
before any data event, so `commandSent` is true throughout).  A chunk whose
cleaned form is empty is ignored; a chunk containing `--More--` pages
forward (a space is written) without checking for the prompt; otherwise the
prompt pattern is tested against the trimmed last line of the ANSI-stripped
accumulation.  When the chunks run out, the timeout handler returns the
cleaned accumulation if non-empty and rejects with `TimeoutError` only when
nothing at all was accumulated. -/

/-- The case-insensitive `--More--` test applied to each incoming chunk. -/
def containsSeg (pat : List Char) : List Char → Bool
  | [] => pat.isEmpty
  | c :: r => pat.isPrefixOf (c :: r) || containsSeg pat r

def containsMoreCI (chunk : List Char) : Bool :=
  containsSeg ("--more--".toList) (toLowerChars chunk)

inductive TelnetExecResult where
  | ok (out : List Char)
  | timeoutErr (command : List Char) (ms : Nat)
  deriving DecidableEq, Repr

def telnetLoop (pat : PromptPat) (command : List Char) (timeoutMs : Nat) :
    List Char → List (List Char) → TelnetExecResult
  | output, [] =>
    if 0 < output.length then .ok (cleanOutput pat output command)
    else .timeoutErr command timeoutMs
  | output, chunk :: rest =>
    if chunk.length = 0 then telnetLoop pat command timeoutMs output rest
    else if containsMoreCI chunk then
      telnetLoop pat command timeoutMs (output ++ chunk) rest
    else if promptTest pat (trimChars (lastLine (stripAnsi (output ++ chunk)))) then
      .ok (cleanOutput pat (output ++ chunk) command)
    else telnetLoop pat command timeoutMs (output ++ chunk) rest

/-- `executeCommand` over a chunk trace, starting from an empty buffer. -/
def telnetExecuteCommand (pat : PromptPat) (command : List Char) (timeoutMs : Nat)
    (chunks : List (List Char)) : TelnetExecResult :=
  telnetLoop pat command timeoutMs [] chunks

/-- Whether some prefix of the trace triggers prompt-match completion. -/
def promptCompletes (pat : PromptPat) : List Char → List (List Char) → Bool
  | _, [] => false
  | output, chunk :: rest =>
    if chunk.length = 0 then promptCompletes pat output rest
    else if containsMoreCI chunk then promptCompletes pat (output ++ chunk) rest
    else if promptTest pat (trimChars (lastLine (stripAnsi (output ++ chunk)))) then true
    else promptCompletes pat (output ++ chunk) rest

theorem telnetLoop_no_prompt (pat : PromptPat) (command : List Char) (timeoutMs : Nat) :
    ∀ (chunks : List (List Char)) (output : List Char),
      promptCompletes pat output chunks = false →
      telnetLoop pat command timeoutMs output chunks =
        if 0 < (output ++ chunks.flatten).length
        then .ok (cleanOutput pat (output ++ chunks.flatten) command)
        else .timeoutErr command timeoutMs := by
  intro chunks
  induction chunks with
  | nil =>
    intro output h
    simp [telnetLoop]
  | cons chunk rest ih =>
    intro output h
    rw [promptCompletes] at h
    rw [telnetLoop]
    by_cases h0 : chunk.length = 0
    · rw [if_pos h0] at h ⊢
      have hce : chunk = [] := List.length_eq_zero.mp h0
      rw [ih output h]
      simp [hce]
    · rw [if_neg h0] at h ⊢
      by_cases hm : containsMoreCI chunk = true
      · rw [if_pos hm] at h ⊢
        rw [ih (output ++ chunk) h]
        simp
      · rw [if_neg hm] at h ⊢
        by_cases hp : promptTest pat (trimChars (lastLine (stripAnsi (output ++ chunk)))) = true
        · rw [if_pos hp] at h
          exact absurd h (by simp)
        · rw [if_neg hp] at h ⊢
          rw [ih (output ++ chunk) h]
          simp

/-- C5: when the deadline elapses before the learned prompt pattern ever
matches, the Telnet `executeCommand` resolves with the cleaned accumulated
output if any bytes were accumulated, and rejects with `TimeoutError` only
when nothing at all was accumulated. -/
theorem telnet_timeout_leniency (pat : PromptPat) (command : List Char)
    (timeoutMs : Nat) (chunks : List (List Char))
    (h : promptCompletes pat [] chunks = false) :
    telnetExecuteCommand pat command timeoutMs chunks =
      if 0 < chunks.flatten.length
      then .ok (cleanOutput pat chunks.flatten command)
      else .timeoutErr command timeoutMs := by
  rw [telnetExecuteCommand, telnetLoop_no_prompt pat command timeoutMs chunks [] h]
  simp

/-- Witness for C5: a trace whose data never matches the learned prompt
returns the cleaned accumulation; an all-IAC trace (cleaned chunks empty)
raises `TimeoutError`. -/
theorem telnet_timeout_leniency_witness :
    telnetExecuteCommand (.learned ("switch".toList)) ("show ver".toList) 30000
        [['p', 'a', 'r'], ['t', 'i', 'a', 'l']] = .ok ("partial".toList)
    ∧ telnetExecuteCommand (.learned ("switch".toList)) ("show ver".toList) 30000
        [[], []] = .timeoutErr ("show ver".toList) 30000 := by
  constructor
  · rw [telnet_timeout_leniency (.learned ("switch".toList)) ("show ver".toList) 30000
      [['p', 'a', 'r'], ['t', 'i', 'a', 'l']] (by decide)]
    decide
  · rw [telnet_timeout_leniency (.learned ("switch".toList)) ("show ver".toList) 30000
      [[], []] (by decide)]
    decide

/-! ## Prompt learning (telnet-client.ts `detectPrompt`, lines 228-250)

The match of the trimmed last line against
`^(\S+(?:\([^)]+\))?)\s*([>#])\s*$` is computed by backtracking exactly as
the regex engine does: the greedy `\S+` is tried from longest to shortest;
at each length the optional non-empty parenthesised group is tried first,
then skipped; the remainder must be `\s*[>#]\s*` to the end. -/

/-- The `(?:\([^)]+\))?` group at the head of the list: returns the matched
group and the remainder (the greedy `[^)]+` stops at the first `)`). -/
def parenGroup : List Char → Option (List Char × List Char)
  | [] => none
  | c :: r =>
    if c = '(' then
      match r.dropWhile (fun x => !(x = ')')) with
      | _ :: r2 =>
        if (r.takeWhile fun x => !(x = ')')) = [] then none
        else some ('(' :: ((r.takeWhile fun x => !(x = ')')) ++ [')']), r2)
      | [] => none
    else none

/-- `\s*([>#])\s*$` at the head of the list. -/
def matchTailWS (l : List Char) : Option Char :=
  match l.dropWhile jsWS with
  | c :: rest => if (c = '>' || c = '#') && rest.all jsWS then some c else none
  | [] => none

/-- Try `\S+` lengths from `n` down to 1; returns capture group 1 and the
prompt character. -/
def tryLens (t : List Char) : Nat → Option (List Char × Char)
  | 0 => none
  | l + 1 =>
    match parenGroup (t.drop (l + 1)) with
    | some (g, r2) =>
      match matchTailWS r2 with
      | some c => some (t.take (l + 1) ++ g, c)
      | none =>
        match matchTailWS (t.drop (l + 1)) with
        | some c => some (t.take (l + 1), c)
        | none => tryLens t l
    | none =>
      match matchTailWS (t.drop (l + 1)) with
      | some c => some (t.take (l + 1), c)
      | none => tryLens t l

/-- The full-line prompt match (`\S+` cannot exceed the leading non-space
run). -/
def promptLineMatch (t : List Char) : Option (List Char × Char) :=
  tryLens t (t.takeWhile fun c => !(jsWS c)).length

/-- The prompt-related fields of `BrocadeTelnetClient`. -/
structure PromptState where
  learnedPrompt : List Char
  inEnableMode : Bool
  promptPattern : PromptPat
  deriving DecidableEq, Repr

/-- `detectPrompt(text)`: match the trimmed *last* line; on success record
the capture as `learnedPrompt`, set `inEnableMode` iff the prompt char is
`#`, and install the learned pattern whose base is the capture up to its
first `(`. -/
def detectPrompt (st : PromptState) (text : List Char) : PromptState × Bool :=
  match promptLineMatch (trimChars (lastLine text)) with
  | some (m1, c) =>
    ({ learnedPrompt := m1,
       inEnableMode := decide (c = '#'),
       promptPattern := .learned (m1.takeWhile fun x => !(x = '(')) }, true)
  | none => (st, false)

theorem dropWhile_append_all {α : Type} (p : α → Bool) (l1 l2 : List α)
    (h : ∀ x ∈ l1, p x = true) :
    (l1 ++ l2).dropWhile p = l2.dropWhile p := by
  induction l1 with
  | nil => simp
  | cons a l1 ih =>
    rw [List.cons_append, List.dropWhile_cons, if_pos (h a (by simp))]
    exact ih (fun x hx => h x (by simp [hx]))

theorem dropWhile_cons_neg {α : Type} (p : α → Bool) (a : α) (l : List α)
    (h : p a = false) : (a :: l).dropWhile p = a :: l := by
  rw [List.dropWhile_cons, if_neg (by simp [h])]

theorem dropWhile_stops {α : Type} (p : α → Bool) (u v : List α) (hu : u ≠ [])
    (h : ∀ x ∈ u, p x = false) : (u ++ v).dropWhile p = u ++ v := by
  cases u with
  | nil => exact absurd rfl hu
  | cons a as =>
    rw [List.cons_append]
    exact dropWhile_cons_neg p a _ (h a (by simp))

theorem isPrefixOf_append_self (l r : List Char) : l.isPrefixOf (l ++ r) = true := by
  induction l with
  | nil => simp [List.isPrefixOf]
  | cons a as ih => simp [List.isPrefixOf, ih]

theorem parenCandidates_mem (xs r5 : List Char) (h : ')' ∉ xs) :
    r5 ∈ parenCandidates (xs ++ '(' :: r5) := by
  induction xs with
  | nil =>
    rw [List.nil_append, parenCandidates]
    simp
  | cons x xs ih =>
    have hx : ¬ x = ')' := fun he => h (by simp [he])
    have h' : ')' ∉ xs := fun he => h (by simp [he])
    rw [List.cons_append, parenCandidates, if_neg hx]
    by_cases hp : x = '('
    · rw [if_pos hp]
      exact List.mem_cons_of_mem _ (ih h')
    · rw [if_neg hp]
      exact ih h'

/-- C6 counterexample: `detectPrompt` examines only the *last* line, so for
the text `"switch#\n"` — whose last non-empty line `"switch#"` matches the
prompt regex — nothing is learned, the state is unchanged and the
detection fails. -/
theorem detectPrompt_counterexample :
    detectPrompt ⟨[], false, .dflt⟩ ("switch#\n".toList) =
      (⟨[], false, .dflt⟩, false)
    ∧ promptLineMatch (trimChars ("switch#".toList)) =
      some ("switch".toList, '#') := by
  decide

theorem promptTest_learned_sound_plain (base pre w1 w2 : List Char) (c' : Char)
    (hbase : ∀ x ∈ base, jsWS x = false)
    (hw1 : ∀ x ∈ w1, jsWS x = true) (hw2 : ∀ x ∈ w2, jsWS x = true)
    (hc' : c' = '>' ∨ c' = '#') :
    promptTest (.learned base) (pre ++ base ++ w1 ++ c' :: w2) = true := by
  have hcw : jsWS c' = false := by rcases hc' with h | h <;> subst h <;> decide
  have hrev : (pre ++ base ++ w1 ++ c' :: w2).reverse.dropWhile jsWS
      = c' :: (w1.reverse ++ (base.reverse ++ pre.reverse)) := by
    have h1 : (pre ++ base ++ w1 ++ c' :: w2).reverse
        = w2.reverse ++ (c' :: (w1.reverse ++ (base.reverse ++ pre.reverse))) := by
      simp
    rw [h1, dropWhile_append_all jsWS w2.reverse _
      (fun x hx => hw2 x (List.mem_reverse.mp hx))]
    exact dropWhile_cons_neg jsWS c' _ hcw
  rw [promptTest, hrev]
  simp only []
  rw [if_pos (by rcases hc' with h | h <;> subst h <;> decide)]
  have hstrip : (w1.reverse ++ (base.reverse ++ pre.reverse)).dropWhile jsWS
      = (base.reverse ++ pre.reverse).dropWhile jsWS :=
    dropWhile_append_all jsWS w1.reverse _ (fun x hx => hw1 x (List.mem_reverse.mp hx))
  have hcond : base.reverse.isPrefixOf
      ((w1.reverse ++ (base.reverse ++ pre.reverse)).dropWhile jsWS) = true := by
    rw [hstrip]
    by_cases hb : base = []
    · subst hb
      simp [List.isPrefixOf]
    · have hne : base.reverse ≠ [] := by simpa using hb
      rw [dropWhile_stops jsWS base.reverse pre.reverse hne
        (fun x hx => hbase x (List.mem_reverse.mp hx))]
      exact isPrefixOf_append_self _ _
  rw [if_pos hcond]

theorem promptTest_learned_sound_paren (base pre inner w1 w2 : List Char) (c' : Char)
    (_hbase : ∀ x ∈ base, jsWS x = false) (hinner : ')' ∉ inner)
    (hw1 : ∀ x ∈ w1, jsWS x = true) (hw2 : ∀ x ∈ w2, jsWS x = true)
    (hc' : c' = '>' ∨ c' = '#') :
    promptTest (.learned base)
      (pre ++ base ++ '(' :: inner ++ [')'] ++ w1 ++ c' :: w2) = true := by
  have hcw : jsWS c' = false := by rcases hc' with h | h <;> subst h <;> decide
  have hrev : (pre ++ base ++ '(' :: inner ++ [')'] ++ w1 ++ c' :: w2).reverse.dropWhile jsWS
      = c' :: (w1.reverse ++ (')' :: (inner.reverse ++ '(' :: (base.reverse ++ pre.reverse)))) := by
    have h1 : (pre ++ base ++ '(' :: inner ++ [')'] ++ w1 ++ c' :: w2).reverse
        = w2.reverse ++ (c' :: (w1.reverse ++
            (')' :: (inner.reverse ++ '(' :: (base.reverse ++ pre.reverse))))) := by
      simp
    rw [h1, dropWhile_append_all jsWS w2.reverse _
      (fun x hx => hw2 x (List.mem_reverse.mp hx))]
    exact dropWhile_cons_neg jsWS c' _ hcw
  rw [promptTest, hrev]
  simp only []
  rw [if_pos (by rcases hc' with h | h <;> subst h <;> decide)]
  have hstrip : (w1.reverse ++ (')' :: (inner.reverse ++ '(' :: (base.reverse ++ pre.reverse)))).dropWhile jsWS
      = ')' :: (inner.reverse ++ '(' :: (base.reverse ++ pre.reverse)) := by
    rw [dropWhile_append_all jsWS w1.reverse _ (fun x hx => hw1 x (List.mem_reverse.mp hx))]
    exact dropWhile_cons_neg jsWS ')' _ (by decide)
  rw [hstrip]
  by_cases hpre : base.reverse.isPrefixOf
      (')' :: (inner.reverse ++ '(' :: (base.reverse ++ pre.reverse))) = true
  · rw [if_pos hpre]
  · rw [if_neg hpre]
    simp only []
    rw [List.any_eq_true]
    refine ⟨base.reverse ++ pre.reverse, ?_, isPrefixOf_append_self _ _⟩
    exact parenCandidates_mem inner.reverse _ (fun he => hinner (List.mem_reverse.mp he))

/-- C6 (amended): whenever the *last line of the accumulated text, after
trimming,* matches `^(\S+(?:\([^)]+\))?)\s*([>#])\s*$`, prompt learning
records the capture as the learned prompt, sets the elevated flag exactly
when the prompt character is `#`, and installs the learned matcher whose
base is the capture stripped of any parenthetical suffix; when the trimmed
last line does not match, nothing is learned.  The installed matcher
accepts any line ending in the base token, an optional parenthesised
suffix, one of `>`/`#`, and trailing whitespace. -/
theorem detectPrompt_learning (st : PromptState) (text : List Char)
    (m1 : List Char) (c : Char)
    (hm : promptLineMatch (trimChars (lastLine text)) = some (m1, c)) :
    detectPrompt st text =
      ({ learnedPrompt := m1,
         inEnableMode := decide (c = '#'),
         promptPattern := .learned (m1.takeWhile fun x => !(x = '(')) }, true)
    ∧ (∀ (st' : PromptState) (text' : List Char),
        promptLineMatch (trimChars (lastLine text')) = none →
        detectPrompt st' text' = (st', false))
    ∧ (∀ (base pre w1 w2 : List Char) (c' : Char),
        (∀ x ∈ base, jsWS x = false) →
        (∀ x ∈ w1, jsWS x = true) → (∀ x ∈ w2, jsWS x = true) →
        (c' = '>' ∨ c' = '#') →
        promptTest (.learned base) (pre ++ base ++ w1 ++ c' :: w2) = true)
    ∧ (∀ (base pre inner w1 w2 : List Char) (c' : Char),
        (∀ x ∈ base, jsWS x = false) → (')' ∉ inner) →
        (∀ x ∈ w1, jsWS x = true) → (∀ x ∈ w2, jsWS x = true) →
        (c' = '>' ∨ c' = '#') →
        promptTest (.learned base)
          (pre ++ base ++ '(' :: inner ++ [')'] ++ w1 ++ c' :: w2) = true) := by
  refine ⟨?_, ?_, promptTest_learned_sound_plain, promptTest_learned_sound_paren⟩
  · rw [detectPrompt, hm]
  · intro st' text' hn
    rw [detectPrompt, hn]

/-- Witness for C6: learning from `"line1\nswitch(config)#"` records
`switch(config)`, elevated mode, and the base `switch`; the installed
matcher accepts `"switch(conf-if)# "`. -/
theorem detectPrompt_learning_witness :
    detectPrompt ⟨[], false, .dflt⟩ ("line1\nswitch(config)#".toList) =
      ({ learnedPrompt := "switch(config)".toList,
         inEnableMode := true,
         promptPattern := .learned ("switch".toList) }, true)
    ∧ promptTest (.learned ("switch".toList)) ("switch(conf-if)# ".toList) = true := by
  have h := detectPrompt_learning ⟨[], false, .dflt⟩ ("line1\nswitch(config)#".toList)
    ("switch(config)".toList) '#' (by decide)
  constructor
  · rw [h.1]
    decide
  · have h2 := h.2.2.2 ("switch".toList) [] ("conf-if".toList) [] [' '] '#'
      (by decide) (by decide) (by decide) (by decide) (Or.inr rfl)
    have he : (([] : List Char) ++ "switch".toList ++ '(' :: "conf-if".toList ++ [')'] ++ [] ++ '#' :: [' ']) =
        "switch(conf-if)# ".toList := by decide
    rw [he] at h2
    exact h2

/-! ## disconnect (telnet-client.ts lines 770-788, ssh-client.ts lines 481-497)

The fields touched by `disconnect()` are modelled directly: timers become
unset, the socket / ssh2 client is destroyed and nulled, the state returns
to DISCONNECTED, and the telnet engine additionally clears `inEnableMode`
and `learnedPrompt` (the compiled `promptPattern` is left as is). -/

structure TelnetSession where
  socketPresent : Bool
  state : ConnState
  reconnectTimerSet : Bool
  keepaliveTimerSet : Bool
  learnedPrompt : List Char
  inEnableMode : Bool
  promptPattern : PromptPat
  lastActivity : Nat
  connectionAttempts : Nat
  deriving DecidableEq, Repr

def telnetDisconnect (s : TelnetSession) : TelnetSession :=
  { s with
    keepaliveTimerSet := false,
    reconnectTimerSet := false,
    socketPresent := false,
    state := .disconnected,
    inEnableMode := false,
    learnedPrompt := [] }

structure SSHSession where
  clientPresent : Bool
  state : ConnState
  reconnectTimerSet : Bool
  keepaliveTimerSet : Bool
  lastActivity : Nat
  connectionAttempts : Nat
  deriving DecidableEq, Repr

def sshDisconnect (s : SSHSession) : SSHSession :=
  { s with
    keepaliveTimerSet := false,
    reconnectTimerSet := false,
    clientPresent := false,
    state := .disconnected }

/-- C8: on both engines `disconnect()` cancels both timers, closes and
clears the socket / client handle, resets the state to Disconnected, and on
the Telnet engine clears the learned prompt and the elevated flag; and it
is idempotent — a second call leaves the session exactly as the first. -/
theorem disconnect_resets_and_idempotent (t : TelnetSession) (s : SSHSession) :
    (telnetDisconnect t).keepaliveTimerSet = false
    ∧ (telnetDisconnect t).reconnectTimerSet = false
    ∧ (telnetDisconnect t).socketPresent = false
    ∧ (telnetDisconnect t).state = .disconnected
    ∧ (telnetDisconnect t).learnedPrompt = []
    ∧ (telnetDisconnect t).inEnableMode = false
    ∧ telnetDisconnect (telnetDisconnect t) = telnetDisconnect t
    ∧ (sshDisconnect s).keepaliveTimerSet = false
    ∧ (sshDisconnect s).reconnectTimerSet = false
    ∧ (sshDisconnect s).clientPresent = false
    ∧ (sshDisconnect s).state = .disconnected
    ∧ sshDisconnect (sshDisconnect s) = sshDisconnect s := by
  refine ⟨rfl, rfl, rfl, rfl, rfl, rfl, rfl, rfl, rfl, rfl, rfl, rfl⟩
